import Mathlib

/-!
Verification of the run-content codec, annotation range linker and related
operations of the python-docx fork (src/docx/oxml/text/run.py,
src/docx/oxml/text/paragraph.py, src/docx/document.py).

The element trees are shallowly embedded: a run child is either the
run-properties singleton or one of the inline-atom elements; a paragraph
child is a node tagged by its element kind.  Strings are modelled as
List Char.  Library behaviour that the five source files rely on but that
is not itself in the excerpt (the xmlchemy add methods, lxml insertion
primitives) is modelled from the spec, as noted on each definition.
-/

namespace Docx

/-- Inline-atom elements that can appear as run inner content
(run.py, classes CT_Text, CT_DelText, CT_Br, CT_Cr, CT_NoBreakHyphen,
CT_PTab, the tab element, CT_Drawing, CT_LastRenderedPageBreak).
A text or delText atom carries its characters and whether the
whitespace-preserve attribute (xml:space="preserve") is set; a br atom
carries its optional w:type attribute value. -/
inductive Atom where
  | text (s : List Char) (preserve : Bool)
  | delText (s : List Char) (preserve : Bool)
  | tab
  | br (btype : Option (List Char))
  | cr
  | noBreakHyphen
  | ptab
  | drawing
  | lastRenderedPageBreak
  deriving DecidableEq, Repr

/-- A child of a CT_R (w:r) element: the w:rPr run-properties singleton or an
inline-content atom. -/
inductive RChild where
  | rPr
  | atom (a : Atom)
  deriving DecidableEq, Repr

/-- Whitespace test for the characters handled by this model, matching the
Python default str.strip / str.isspace class on the ASCII range
(space, tab, newline, carriage return, vertical tab, form feed, and the
file and group separators 0x1C-0x1F). -/
def isPyWs (c : Char) : Bool :=
  c = ' ' || c = '\t' || c = '\n' || c = '\r' || c.toNat = 11 || c.toNat = 12 ||
    (28 ≤ c.toNat && c.toNat ≤ 31)

/-- Python text.strip(): remove leading and trailing whitespace. -/
def pyStrip (s : List Char) : List Char :=
  ((s.dropWhile isPyWs).reverse.dropWhile isPyWs).reverse

/-- Condition under which CT_R.add_t and CT_R.add_dt set xml:space="preserve"
(run.py line 44: len(text.strip()) < len(text)). -/
def needsPreserve (s : List Char) : Bool :=
  decide ((pyStrip s).length < s.length)

/-- CT_R.add_t (run.py lines 41-46): a new w:t element containing text, with
xml:space="preserve" set exactly when stripping shortens the text. -/
def add_t (s : List Char) : Atom :=
  Atom.text s (needsPreserve s)

/-- CT_R.add_dt (run.py lines 48-55): the w:delText variant of add_t. -/
def add_dt (s : List Char) : Atom :=
  Atom.delText s (needsPreserve s)

/-- State of the _RunContentAppender finite-state machine: the atoms already
appended to the run and the pending character buffer (run.py lines 436-438). -/
structure EncState where
  atoms : List Atom
  bfr : List Char
  deriving DecidableEq, Repr

/-- Atoms emitted by _RunContentAppender.flush (run.py lines 468-472): a
single w:t element when the buffer is non-empty, nothing otherwise. -/
def flushBfr (bfr : List Char) : List Atom :=
  if bfr = [] then [] else [add_t bfr]

/-- Effect of _RunContentAppender.flush on the FSM state: the buffered text is
appended as a w:t element (when non-empty) and the buffer is cleared. -/
def flushSt (st : EncState) : EncState :=
  ⟨st.atoms ++ flushBfr st.bfr, []⟩

/-- The _RunContentAppender.add_char FSM step (run.py lines 452-466): a tab
flushes the buffer and appends a w:tab element; a carriage return or newline
flushes the buffer and appends a w:br element (add_br creates it with no
attributes); any other character is buffered.

Modelled from the spec: the xmlchemy-generated add_tab and add_br methods
(docx.oxml.xmlchemy, not part of the excerpt) append the new child at the end
of the run, preserving atom order as section 3 of the spec requires of inline
atoms. -/
def add_char (st : EncState) (c : Char) : EncState :=
  if c = '\t' then ⟨(flushSt st).atoms ++ [Atom.tab], []⟩
  else if c = '\r' || c = '\n' then ⟨(flushSt st).atoms ++ [Atom.br none], []⟩
  else ⟨st.atoms, st.bfr ++ [c]⟩

/-- The _DelRunContentAppender.add_char FSM step (run.py lines 399-414),
identical in shape to add_char but used with the delText flush. -/
def add_char_del (st : EncState) (c : Char) : EncState :=
  if c = '\t' then ⟨(flushSt st).atoms ++ [Atom.tab], []⟩
  else if c = '\r' || c = '\n' then ⟨(flushSt st).atoms ++ [Atom.br none], []⟩
  else ⟨st.atoms, st.bfr ++ [c]⟩

/-- _RunContentAppender.add_text (run.py lines 446-450) before its final
flush: process each character through the FSM. -/
def add_text (s : List Char) (st : EncState) : EncState :=
  s.foldl add_char st

/-- The run-content encoder: _RunContentAppender.append_to_run_from_text on an
empty run, i.e. add_text followed by the final flush, projected to the atom
sequence it appends. -/
def encode (s : List Char) : List Atom :=
  (flushSt (add_text s ⟨[], []⟩)).atoms

/-- The w:type attribute value "textWrapping". -/
def wTextWrapping : List Char := "textWrapping".toList

/-- CT_Br.type (run.py lines 276-278): the w:type attribute value, defaulting
to "textWrapping" when the attribute is absent. -/
def brType (btype : Option (List Char)) : List Char :=
  btype.getD wTextWrapping

/-- CT_Br text equivalent (run.py lines 281-290): a newline for a
textWrapping (line) break, the empty string for page and column breaks. -/
def brStr (btype : Option (List Char)) : List Char :=
  if brType btype = wTextWrapping then ['\n'] else []

/-- Whether a run child is selected by the CT_R.text getter xpath
"w:br | w:cr | w:noBreakHyphen | w:ptab | w:t | w:tab" (run.py line 233). -/
def childSelected : RChild → Bool
  | RChild.atom (Atom.text _ _) => true
  | RChild.atom Atom.tab => true
  | RChild.atom (Atom.br _) => true
  | RChild.atom Atom.cr => true
  | RChild.atom Atom.noBreakHyphen => true
  | RChild.atom Atom.ptab => true
  | _ => false

/-- Text equivalent str(e) of a selected run child (the respective element
classes in run.py lines 273-357; CT_Tab and CT_PTab yield a tab, CT_Cr a
newline, CT_NoBreakHyphen a dash, CT_Text its literal characters).  Children
not selected by the text getter are never asked for their text; the value
for them here is irrelevant and chosen empty. -/
def childStr : RChild → List Char
  | RChild.atom (Atom.text s _) => s
  | RChild.atom Atom.tab => ['\t']
  | RChild.atom (Atom.br b) => brStr b
  | RChild.atom Atom.cr => ['\n']
  | RChild.atom Atom.noBreakHyphen => ['-']
  | RChild.atom Atom.ptab => ['\t']
  | _ => []

/-- CT_R.text getter (run.py lines 226-234): concatenation of the text
equivalents of the selected inner-content children, in document order. -/
def runText (children : List RChild) : List Char :=
  ((children.filter childSelected).map childStr).flatten

/-- Whether a run child is the w:rPr run-properties singleton. -/
def isRPr : RChild → Bool
  | RChild.rPr => true
  | _ => false

/-- CT_R.clear_content, the effective (second) definition (run.py lines
143-149): when self.rPr is present keep only the first child, otherwise
remove every child. -/
def clear_content (children : List RChild) : List RChild :=
  if children.any isRPr then children.take 1 else []

/-- CT_R.text setter (run.py lines 236-239): clear_content, then append the
atoms the encoder produces for the new text. -/
def setText (children : List RChild) (s : List Char) : List RChild :=
  clear_content children ++ (encode s).map RChild.atom

/-- A child of the paragraph (w:p) element, as far as the annotation linker is
concerned: a run (labelled so distinct runs can be told apart), a
w:commentRangeStart or w:commentRangeEnd marker carrying its w:id, a reference
run (a w:r whose only child is a w:commentReference carrying its w:id), or any
other element. -/
inductive PNode where
  | run (label : Nat)
  | commentRangeStart (cid : Nat)
  | commentRangeEnd (cid : Nat)
  | refRun (cid : Nat)
  | other (label : Nat)
  deriving DecidableEq, Repr

/-- Insertion into a sibling list at position i.

Modelled from the spec: the lxml addprevious and addnext primitives used by
run.py insert a node immediately before respectively after a given sibling;
section 4.3 of the spec describes the linker in exactly these terms.  Both
reduce to list insertion at the appropriate index. -/
def insertAt (l : List α) (i : Nat) (x : α) : List α :=
  l.take i ++ x :: l.drop i

/-- CT_R.mark_comment_start (run.py lines 84-92) on the run at index i of its
sibling list: self.addprevious inserts a w:commentRangeStart before the run. -/
def mark_comment_start (cs : List PNode) (i : Nat) (cid : Nat) : List PNode :=
  insertAt cs i (PNode.commentRangeStart cid)

/-- CT_R.mark_comment_end (run.py lines 94-110) on the run at index i of its
sibling list: self.addnext inserts a w:commentRangeEnd after the run, then
comm_end.addnext inserts the reference run after the w:commentRangeEnd. -/
def mark_comment_end (cs : List PNode) (i : Nat) (cid : Nat) : List PNode :=
  insertAt (insertAt cs (i + 1) (PNode.commentRangeEnd cid)) (i + 2) (PNode.refRun cid)

/-- CT_R.link_comment (run.py lines 80-82) on the run at index i: first
mark_comment_start (after which the run sits at index i + 1), then
mark_comment_end. -/
def link_comment (cs : List PNode) (i : Nat) (cid : Nat) : List PNode :=
  mark_comment_end (mark_comment_start cs i cid) (i + 1) cid

/-- The sibling-list effect of Document.add_comment (document.py lines
169-209) when start and end run share a parent, with the start run at index
si and the end run at index ei: start_run.mark_comment_start followed by
end_run.mark_comment_end, the end-run index shifting by one when the start
marker was inserted at or before it.  The construction of the comment body in
the comments part does not touch this sibling list and is omitted.  The
source performs no validation of the relative position of the two runs and
raises no error on this path. -/
def document_add_comment (cs : List PNode) (si ei : Nat) (cid : Nat) : List PNode :=
  mark_comment_end (mark_comment_start cs si cid)
    (if si ≤ ei then ei + 1 else ei) cid

/-- The upper lambda of Document.add_comment (document.py line 193): all
uppercase characters of the name.  Char.isUpper matches the Python
str.isupper test on the ASCII range this model covers. -/
def upperInitials (n : List Char) : List Char :=
  n.filter Char.isUpper

/-- Split a character list at every separator satisfying p, keeping empty
pieces, as the Python str.split with an explicit separator does. -/
def splitSep (p : Char → Bool) (s : List Char) : List (List Char) :=
  s.foldr
    (fun c acc =>
      if p c then [] :: acc
      else
        match acc with
        | [] => [[c]]
        | t :: ts => (c :: t) :: ts)
    [[]]

/-- The splitter lambda of Document.add_comment (document.py line 197):
split the author on the literal space character, take the first character of
each piece and uppercase the result.  Python raises IndexError on t[0] when a
piece is empty (consecutive, leading or trailing spaces); that failure is
modelled as none. -/
def splitterInitials (n : List Char) : Option (List Char) :=
  let toks := splitSep (fun c => c = ' ') n
  if toks.all (fun t => !t.isEmpty) then
    some ((toks.map (fun t => t.headD ' ')).map Char.toUpper)
  else none

/-- The initials computation of Document.add_comment when initials is None
(document.py lines 188-201): the uppercase letters of the author, or, when
there are none, the splitter fallback. -/
def deriveInitials (author : List Char) : Option (List Char) :=
  let u := upperInitials author
  if u.isEmpty then splitterInitials author else some u

/-- Modelled from the spec: the initials rule as section 4.3 words it, namely
take all uppercase letters of author and, if that result is empty, take the
first character of each whitespace-separated token in author, uppercased.
Whitespace-separated tokens are the maximal whitespace-free pieces, i.e. the
non-empty pieces left after splitting at every whitespace character. -/
def deriveInitialsSpec (author : List Char) : List Char :=
  let u := upperInitials author
  if u.isEmpty then
    ((splitSep isPyWs author).filter (fun t => !t.isEmpty)).map
      (fun t => Char.toUpper (t.headD ' '))
  else u

/-- One w:numPr element as used by Document.fudge_list_markers: the w:numId
and w:ilvl attribute lookups each either give a value or fail (missing child
or missing attribute), failure modelled as none. -/
structure NumPrElem where
  numId : Option (List Char)
  ilvl : Option (List Char)
  deriving DecidableEq, Repr

/-- A paragraph as Document.fudge_list_markers sees it: the w:numPr
descendants found by the xpath query, and the paragraph text. -/
structure Para where
  numPrs : List NumPrElem
  text : List Char
  deriving DecidableEq, Repr

/-- The per-paragraph part of the group computation in fudge_list_markers
(document.py lines 129-133): None for a paragraph without numbering, the
(numId, ilvl) pair otherwise; the outer value is none when a lookup inside
the try block raises. -/
def paraGroup (p : Para) : Option (Option (List Char × List Char)) :=
  match p.numPrs.head? with
  | none => some none
  | some e =>
    match e.numId, e.ilvl with
    | some a, some b => some (some (a, b))
    | _, _ => none

/-- The whole para_num_groups list comprehension inside the try block
(document.py lines 128-133): any lookup failure aborts the whole
computation. -/
def paraNumGroups (paras : List Para) : Option (List (Option (List Char × List Char))) :=
  paras.mapM paraGroup

/-- The enumerations counting loop of fudge_list_markers (document.py lines
141-156): each group receives successive counts 1, 2, ..., paragraphs
without a group receive none.  The running counters live in an association
list queried through List.lookup. -/
def assignNums (groups : List (Option (List Char × List Char))) : List (Option Nat) :=
  (groups.foldl
    (fun st g =>
      match g with
      | none => (st.1, st.2 ++ [none])
      | some k =>
        let c := ((List.lookup k st.1).getD 0) + 1
        ((k, c) :: st.1, st.2 ++ [some c]))
    (([] : List ((List Char × List Char) × Nat)), ([] : List (Option Nat)))).2

/-- The overwrite loop of fudge_list_markers (document.py lines 163-167).
Paragraphs whose number is None are skipped.  For the first paragraph with a
number the source evaluates num + ")" with num an int, which raises
TypeError in Python before any paragraph text has been assigned; the error
and the (unchanged) paragraph list are returned. -/
def fudgeMutate : List (Para × Option Nat) → Option (List Char) × List Para
  | [] => (none, [])
  | (p, none) :: rest =>
    let r := fudgeMutate rest
    (r.1, p :: r.2)
  | (p, some _) :: rest =>
    (some "TypeError".toList, p :: rest.map Prod.fst)

/-- Document.fudge_list_markers (document.py lines 118-167): compute the
numbering groups inside a try block, aborting silently (returning with no
error and no mutation) when any lookup fails; otherwise run the counting and
overwrite phases.  The result is the error raised, if any, paired with the
final paragraph list. -/
def fudge_list_markers (paras : List Para) : Option (List Char) × List Para :=
  match paraNumGroups paras with
  | none => (none, paras)
  | some groups => fudgeMutate (paras.zip (assignNums groups))

/-- Whether a string has leading or trailing whitespace, stated directly on
its first and last characters.  Used to state the whitespace-preserve claim
independently of the strip-based test the source uses. -/
def edgeWs (t : List Char) : Bool :=
  (t.head?.elim false isPyWs) || (t.getLast?.elim false isPyWs)

/-- The character class of the round-trip claim: printable characters
(modelled as the non-control range, 0x20 and above except 0x7F), tabs and
newlines. -/
def printableTabNl (c : Char) : Prop :=
  c = '\t' ∨ c = '\n' ∨ (32 ≤ c.toNat ∧ c.toNat ≠ 127)

instance (c : Char) : Decidable (printableTabNl c) := by
  unfold printableTabNl; infer_instance

/-- Schema well-formedness of a run child list: the w:rPr singleton, when
present, is the first child (the run schema places w:rPr first, and
CT_R.insert_rPr inserts it at index 0).  Stated as: no child after the first
is a w:rPr. -/
def rPrFirst (children : List RChild) : Prop :=
  ∀ x ∈ children.drop 1, isRPr x = false

instance (children : List RChild) : Decidable (rPrFirst children) := by
  unfold rPrFirst; infer_instance

/-- The text projection of a bare atom sequence: the CT_R.text getter applied
to a run holding exactly those atoms. -/
def decodeAtoms (atoms : List Atom) : List Char :=
  runText (atoms.map RChild.atom)

/-! ## Helper lemmas on the encoder FSM -/

theorem add_text_nil (st : EncState) : add_text [] st = st := rfl

theorem add_text_cons (c : Char) (cs : List Char) (st : EncState) :
    add_text (c :: cs) st = add_text cs (add_char st c) := rfl

theorem add_text_append (s t : List Char) (st : EncState) :
    add_text (s ++ t) st = add_text t (add_text s st) := by
  simp [add_text, List.foldl_append]

theorem add_char_tab (st : EncState) :
    add_char st '\t' = ⟨st.atoms ++ flushBfr st.bfr ++ [Atom.tab], []⟩ := by
  simp [add_char, flushSt]

theorem add_char_br (st : EncState) (c : Char) (h : c = '\r' ∨ c = '\n') :
    add_char st c = ⟨st.atoms ++ flushBfr st.bfr ++ [Atom.br none], []⟩ := by
  rcases h with h | h <;> subst h <;> simp [add_char, flushSt]

theorem add_char_other (st : EncState) (c : Char)
    (h1 : c ≠ '\t') (h2 : c ≠ '\r') (h3 : c ≠ '\n') :
    add_char st c = ⟨st.atoms, st.bfr ++ [c]⟩ := by
  simp [add_char, h1, h2, h3]

theorem add_text_shift (s : List Char) (A : List Atom) (bfr : List Char) :
    add_text s ⟨A, bfr⟩
      = ⟨A ++ (add_text s ⟨[], bfr⟩).atoms, (add_text s ⟨[], bfr⟩).bfr⟩ := by
  induction s generalizing A bfr with
  | nil => simp [add_text_nil]
  | cons c cs ih =>
    rw [add_text_cons, add_text_cons]
    by_cases h1 : c = '\t'
    · subst h1
      rw [add_char_tab, add_char_tab]
      simp only [List.nil_append]
      rw [ih (A ++ flushBfr bfr ++ [Atom.tab]) [], ih (flushBfr bfr ++ [Atom.tab]) []]
      simp [List.append_assoc]
    · by_cases h2 : c = '\r'
      · rw [add_char_br _ _ (Or.inl h2), add_char_br _ _ (Or.inl h2)]
        simp only [List.nil_append]
        rw [ih (A ++ flushBfr bfr ++ [Atom.br none]) [],
          ih (flushBfr bfr ++ [Atom.br none]) []]
        simp [List.append_assoc]
      · by_cases h3 : c = '\n'
        · rw [add_char_br _ _ (Or.inr h3), add_char_br _ _ (Or.inr h3)]
          simp only [List.nil_append]
          rw [ih (A ++ flushBfr bfr ++ [Atom.br none]) [],
            ih (flushBfr bfr ++ [Atom.br none]) []]
          simp [List.append_assoc]
        · rw [add_char_other _ _ h1 h2 h3, add_char_other _ _ h1 h2 h3]
          simp only [List.nil_append]
          exact ih A (bfr ++ [c])

theorem runText_append (l1 l2 : List RChild) :
    runText (l1 ++ l2) = runText l1 ++ runText l2 := by
  simp [runText, List.filter_append]

theorem decodeAtoms_append (l1 l2 : List Atom) :
    decodeAtoms (l1 ++ l2) = decodeAtoms l1 ++ decodeAtoms l2 := by
  simp [decodeAtoms, runText_append]

theorem decodeAtoms_flushBfr (bfr : List Char) :
    decodeAtoms (flushBfr bfr) = bfr := by
  by_cases h : bfr = []
  · subst h; rfl
  · simp [flushBfr, h, decodeAtoms, runText, childSelected, childStr, add_t]

theorem flushBfr_nil : flushBfr [] = [] := rfl

theorem decodeAtoms_tab : decodeAtoms [Atom.tab] = ['\t'] := rfl

theorem decodeAtoms_brNone : decodeAtoms [Atom.br none] = ['\n'] := rfl

theorem roundtrip_aux (s : List Char) (bfr : List Char) (h : ∀ c ∈ s, c ≠ '\r') :
    decodeAtoms (flushSt (add_text s ⟨[], bfr⟩)).atoms = bfr ++ s := by
  induction s generalizing bfr with
  | nil =>
    rw [add_text_nil]
    simp [flushSt, decodeAtoms_flushBfr]
  | cons c cs ih =>
    have hc : c ≠ '\r' := h c (List.mem_cons_self c cs)
    have hcs : ∀ x ∈ cs, x ≠ '\r' := fun x hx => h x (List.mem_cons_of_mem c hx)
    rw [add_text_cons]
    have ihh := ih [] hcs
    simp only [flushSt, List.nil_append] at ihh
    rw [decodeAtoms_append, decodeAtoms_flushBfr] at ihh
    by_cases h1 : c = '\t'
    · subst h1
      rw [add_char_tab]
      simp only [List.nil_append]
      rw [add_text_shift]
      simp only [flushSt]
      simp only [List.append_assoc, decodeAtoms_append, decodeAtoms_flushBfr,
        decodeAtoms_tab]
      rw [ihh]
      rfl
    · by_cases h3 : c = '\n'
      · subst h3
        rw [add_char_br _ _ (Or.inr rfl)]
        simp only [List.nil_append]
        rw [add_text_shift]
        simp only [flushSt]
        simp only [List.append_assoc, decodeAtoms_append, decodeAtoms_flushBfr,
          decodeAtoms_brNone]
        rw [ihh]
        rfl
      · rw [add_char_other _ _ h1 hc h3]
        have := ih (bfr ++ [c]) hcs
        rw [this]
        simp

/-- C1: for every string s containing only printable characters, tabs and
newline characters, setting the text of a well-formed run to s and reading the
text projection back returns exactly s (decode after encode is the
identity on such strings). -/
theorem c1_set_text_round_trip (children : List RChild) (s : List Char)
    (hwf : rPrFirst children) (hs : ∀ c ∈ s, printableTabNl c) :
    runText (setText children s) = s := by
  have hnr : ∀ c ∈ s, c ≠ '\r' := by
    intro c hc heq
    subst heq
    rcases hs _ hc with h | h | h
    · exact absurd h (by decide)
    · exact absurd h (by decide)
    · rcases h with ⟨h32, _⟩
      exact absurd h32 (by decide)
  have hclear : runText (clear_content children) = [] := by
    unfold clear_content
    by_cases hany : children.any isRPr
    · rw [if_pos hany]
      rcases children with _ | ⟨c, cs⟩
      · simp at hany
      · have htail : ∀ x ∈ cs, isRPr x = false := by
          intro x hx
          exact hwf x (by simpa using hx)
        have hcrpr : c = RChild.rPr := by
          rcases List.any_eq_true.mp hany with ⟨x, hx, hxr⟩
          rcases List.mem_cons.mp hx with hxc | hxcs
          · rw [hxc] at hxr
            cases c
            · rfl
            · simp [isRPr] at hxr
          · rw [htail x hxcs] at hxr
            exact absurd hxr (by simp)
        subst hcrpr
        rfl
    · rw [if_neg hany]
      rfl
  unfold setText
  rw [runText_append, hclear, List.nil_append]
  have := roundtrip_aux s [] hnr
  simpa [decodeAtoms, encode] using this

theorem c1_witness :
    rPrFirst [RChild.rPr] ∧ (∀ c ∈ "a\tb\nc".toList, printableTabNl c) ∧
      runText (setText [RChild.rPr] "a\tb\nc".toList) = "a\tb\nc".toList :=
  ⟨by decide, by decide,
    c1_set_text_round_trip [RChild.rPr] "a\tb\nc".toList (by decide) (by decide)⟩

/-- C6: the encoder processes carriage return and newline independently, so
encoding any input around a "carriage return then newline" pair yields two
consecutive line-break atoms at that position. -/
theorem c6_crlf_two_line_breaks (a b : List Char) :
    encode (a ++ '\r' :: '\n' :: b)
      = encode a ++ [Atom.br none, Atom.br none] ++ encode b := by
  have hsplit : a ++ '\r' :: '\n' :: b = (a ++ ['\r', '\n']) ++ b := by simp
  unfold encode
  rw [hsplit, add_text_append, add_text_append]
  rcases hst : add_text a ⟨[], []⟩ with ⟨A, bfr⟩
  rw [show add_text ['\r', '\n'] ⟨A, bfr⟩
      = add_char (add_char ⟨A, bfr⟩ '\r') '\n' from rfl]
  rw [add_char_br _ _ (Or.inl rfl)]
  rw [add_char_br _ _ (Or.inr rfl)]
  simp only [flushBfr_nil, List.append_nil]
  rw [add_text_shift]
  simp only [flushSt]
  simp [List.append_assoc]

theorem length_dropWhile_le (p : Char → Bool) (l : List Char) :
    (l.dropWhile p).length ≤ l.length := by
  induction l with
  | nil => simp
  | cons c cs ih =>
    rw [List.dropWhile_cons]
    by_cases h : p c = true
    · rw [if_pos h]
      exact Nat.le_succ_of_le ih
    · rw [if_neg h]

theorem needsPreserve_eq_edgeWs (t : List Char) : needsPreserve t = edgeWs t := by
  rcases t with _ | ⟨c, cs⟩
  · rfl
  · unfold needsPreserve pyStrip edgeWs
    by_cases hc : isPyWs c = true
    · have h1 : List.dropWhile isPyWs (c :: cs) = List.dropWhile isPyWs cs := by
        rw [List.dropWhile_cons, if_pos hc]
      rw [h1]
      have h2 := length_dropWhile_le isPyWs (List.dropWhile isPyWs cs).reverse
      have h3 := length_dropWhile_le isPyWs cs
      have hlt : (((List.dropWhile isPyWs cs).reverse.dropWhile isPyWs).reverse).length
          < (c :: cs).length := by
        rw [List.length_reverse]
        rw [List.length_reverse] at h2
        simp only [List.length_cons]
        omega
      simp only [List.head?_cons, Option.elim, hc, Bool.true_or]
      exact decide_eq_true hlt
    · have hc' : isPyWs c = false := by simpa using hc
      have h1 : List.dropWhile isPyWs (c :: cs) = c :: cs := by
        rw [List.dropWhile_cons, if_neg hc]
      rw [h1]
      rcases hr : (c :: cs).reverse with _ | ⟨r0, rs⟩
      · exact absurd (congrArg List.length hr) (by simp)
      · have hlast : (c :: cs).getLast? = some r0 := by
          rw [List.getLast?_eq_head?_reverse, hr]; rfl
        have hlenrev : (c :: cs).length = rs.length + 1 := by
          have := congrArg List.length hr
          rw [List.length_reverse] at this
          simpa using this
        rw [hlast]
        simp only [List.head?_cons, Option.elim, hc', Bool.false_or]
        by_cases hl : isPyWs r0 = true
        · have h2 : List.dropWhile isPyWs (r0 :: rs) = List.dropWhile isPyWs rs := by
            rw [List.dropWhile_cons, if_pos hl]
          have hlt : ((List.dropWhile isPyWs (r0 :: rs)).reverse).length
              < (c :: cs).length := by
            rw [List.length_reverse, h2]
            have := length_dropWhile_le isPyWs rs
            omega
          rw [hl]
          exact decide_eq_true hlt
        · have hl' : isPyWs r0 = false := by simpa using hl
          have h2 : List.dropWhile isPyWs (r0 :: rs) = r0 :: rs := by
            rw [List.dropWhile_cons, if_neg hl]
          have hnlt : ¬ (((List.dropWhile isPyWs (r0 :: rs)).reverse).length
              < (c :: cs).length) := by
            rw [h2, List.length_reverse]
            simp only [List.length_cons] at hlenrev ⊢
            omega
          rw [hl']
          exact decide_eq_false hnlt

theorem mem_flushBfr (a : Atom) (bfr : List Char) (h : a ∈ flushBfr bfr) :
    bfr ≠ [] ∧ a = add_t bfr := by
  unfold flushBfr at h
  by_cases hb : bfr = []
  · rw [if_pos hb] at h
    simp at h
  · rw [if_neg hb] at h
    exact ⟨hb, by simpa using h⟩

theorem encode_atoms_pred (P : Atom → Prop)
    (hflush : ∀ bfr, bfr ≠ [] → P (add_t bfr))
    (htab : P Atom.tab) (hbr : P (Atom.br none)) :
    ∀ (s : List Char) (st : EncState),
      (∀ a ∈ st.atoms, P a) → ∀ a ∈ (flushSt (add_text s st)).atoms, P a := by
  intro s
  induction s with
  | nil =>
    intro st hst a ha
    rw [add_text_nil] at ha
    rcases List.mem_append.mp ha with h | h
    · exact hst a h
    · rcases mem_flushBfr a _ h with ⟨hb, rfl⟩
      exact hflush _ hb
  | cons c cs ih =>
    intro st hst a ha
    rw [add_text_cons] at ha
    refine ih (add_char st c) ?_ a ha
    intro x hx
    by_cases h1 : c = '\t'
    · subst h1
      rw [add_char_tab] at hx
      simp only [List.mem_append, List.mem_singleton] at hx
      rcases hx with (hx | hx) | hx
      · exact hst x hx
      · rcases mem_flushBfr x _ hx with ⟨hb, rfl⟩
        exact hflush _ hb
      · subst hx; exact htab
    · by_cases h2 : c = '\r'
      · rw [add_char_br _ _ (Or.inl h2)] at hx
        simp only [List.mem_append, List.mem_singleton] at hx
        rcases hx with (hx | hx) | hx
        · exact hst x hx
        · rcases mem_flushBfr x _ hx with ⟨hb, rfl⟩
          exact hflush _ hb
        · subst hx; exact hbr
      · by_cases h3 : c = '\n'
        · rw [add_char_br _ _ (Or.inr h3)] at hx
          simp only [List.mem_append, List.mem_singleton] at hx
          rcases hx with (hx | hx) | hx
          · exact hst x hx
          · rcases mem_flushBfr x _ hx with ⟨hb, rfl⟩
            exact hflush _ hb
          · subst hx; exact hbr
        · rw [add_char_other _ _ h1 h2 h3] at hx
          exact hst x hx

/-- C5: every text atom the encoder emits carries the whitespace-preserve
mark exactly when the flushed string has leading or trailing whitespace; in
particular encoding " a " yields a single preserved text atom and encoding
"a" a single unpreserved one. -/
theorem c5_preserve_iff_edge_whitespace :
    (∀ (s t : List Char) (pw : Bool), Atom.text t pw ∈ encode s → pw = edgeWs t)
      ∧ encode " a ".toList = [Atom.text " a ".toList true]
      ∧ encode "a".toList = [Atom.text "a".toList false] := by
  refine ⟨?_, by decide, by decide⟩
  intro s t pw hmem
  have hmain := encode_atoms_pred (fun a => ∀ u q, a = Atom.text u q → q = edgeWs u)
    ?_ ?_ ?_ s ⟨[], []⟩ (by intro a ha; simp at ha) _ hmem t pw rfl
  · exact hmain
  · intro bfr hb u q he
    unfold add_t at he
    injection he with h1 h2
    rw [← h2, ← h1]
    exact needsPreserve_eq_edgeWs bfr
  · intro u q he; exact absurd he (by simp)
  · intro u q he; exact absurd he (by simp)

theorem c5_witness :
    (Atom.text " a ".toList true ∈ encode " a ".toList) ∧ true = edgeWs " a ".toList :=
  ⟨by decide, c5_preserve_iff_edge_whitespace.1 " a ".toList " a ".toList true (by decide)⟩

/-- C7: the encoder never emits a zero-length text atom: flushing an empty
buffer produces no atom, encoding the empty string yields the empty atom
sequence, and every text atom in any encoding carries a non-empty string. -/
theorem c7_no_empty_text_atom :
    flushBfr [] = [] ∧ encode [] = []
      ∧ ∀ (s t : List Char) (pw : Bool), Atom.text t pw ∈ encode s → t ≠ [] := by
  refine ⟨rfl, rfl, ?_⟩
  intro s t pw hmem
  have hmain := encode_atoms_pred (fun a => ∀ u q, a = Atom.text u q → u ≠ [])
    ?_ ?_ ?_ s ⟨[], []⟩ (by intro a ha; simp at ha) _ hmem t pw rfl
  · exact hmain
  · intro bfr hb u q he
    unfold add_t at he
    injection he with h1 h2
    rw [← h1]
    exact hb
  · intro u q he; exact absurd he (by simp)
  · intro u q he; exact absurd he (by simp)

theorem c7_witness :
    (Atom.text ['a'] false ∈ encode ['a']) ∧ ['a'] ≠ [] :=
  ⟨by decide, c7_no_empty_text_atom.2.2 ['a'] ['a'] false (by decide)⟩

theorem clear_content_eq_filter (children : List RChild) (hwf : rPrFirst children) :
    clear_content children = children.filter isRPr := by
  unfold clear_content
  by_cases hany : children.any isRPr
  · rw [if_pos hany]
    rcases children with _ | ⟨c, cs⟩
    · simp at hany
    · have htail : ∀ x ∈ cs, isRPr x = false := fun x hx => hwf x (by simpa using hx)
      have hcrpr : c = RChild.rPr := by
        rcases List.any_eq_true.mp hany with ⟨x, hx, hxr⟩
        rcases List.mem_cons.mp hx with hxc | hxcs
        · rw [hxc] at hxr
          cases c
          · rfl
          · simp [isRPr] at hxr
        · rw [htail x hxcs] at hxr
          exact absurd hxr (by simp)
      subst hcrpr
      have hfcs : List.filter isRPr cs = [] :=
        List.filter_eq_nil.mpr (by intro a ha; simp [htail a ha])
      simp [List.filter, isRPr, hfcs]
  · rw [if_neg hany]
    have hall := List.any_eq_false.mp (by simpa using hany)
    exact (List.filter_eq_nil.mpr hall).symm

/-- C4: setting the text of a run removes every inline-content child while leaving
the run-properties singleton in place when present: on a well-formed run,
clear_content keeps exactly the w:rPr children and the text setter produces
those followed by the newly encoded atoms. -/
theorem c4_set_text_keeps_rPr (children : List RChild) (s : List Char)
    (hwf : rPrFirst children) :
    clear_content children = children.filter isRPr
      ∧ setText children s = children.filter isRPr ++ (encode s).map RChild.atom := by
  have hclear := clear_content_eq_filter children hwf
  exact ⟨hclear, by unfold setText; rw [hclear]⟩

theorem c4_witness :
    rPrFirst [RChild.rPr, RChild.atom Atom.tab]
      ∧ clear_content [RChild.rPr, RChild.atom Atom.tab]
          = List.filter isRPr [RChild.rPr, RChild.atom Atom.tab]
      ∧ setText [RChild.rPr, RChild.atom Atom.tab] "hi".toList
          = List.filter isRPr [RChild.rPr, RChild.atom Atom.tab]
            ++ (encode "hi".toList).map RChild.atom :=
  ⟨by decide,
    (c4_set_text_keeps_rPr [RChild.rPr, RChild.atom Atom.tab] "hi".toList (by decide)).1,
    (c4_set_text_keeps_rPr [RChild.rPr, RChild.atom Atom.tab] "hi".toList (by decide)).2⟩

/-! ## Helper lemmas for the annotation range linker -/

theorem insertAt_at (pre post : List α) (x : α) (i : Nat) (hi : i = pre.length) :
    insertAt (pre ++ post) i x = pre ++ x :: post := by
  subst hi
  unfold insertAt
  rw [List.take_left, List.drop_left]

/-- C2: link_comment on the run at index i of its sibling list produces
exactly the sibling sequence rangeStart, run, rangeEnd, reference run around
that run, so rangeStart sits at index i, rangeEnd at index i + 2 and the
reference run at index i + 3, a strictly increasing document order. -/
theorem c2_link_comment_order (cs : List PNode) (i : Nat) (cid : Nat)
    (h : i < cs.length) :
    link_comment cs i cid
      = cs.take i
        ++ [PNode.commentRangeStart cid, cs.get ⟨i, h⟩,
            PNode.commentRangeEnd cid, PNode.refRun cid]
        ++ cs.drop (i + 1)
      ∧ (link_comment cs i cid)[i]? = some (PNode.commentRangeStart cid)
      ∧ (link_comment cs i cid)[i + 2]? = some (PNode.commentRangeEnd cid)
      ∧ (link_comment cs i cid)[i + 3]? = some (PNode.refRun cid) := by
  have hpre : (cs.take i).length = i := by
    rw [List.length_take]
    omega
  have hsplit : cs = cs.take i ++ cs.get ⟨i, h⟩ :: cs.drop (i + 1) := by
    conv_lhs => rw [← List.take_append_drop i cs]
    rw [List.get_cons_drop cs ⟨i, h⟩]
  have hmain : link_comment cs i cid
      = cs.take i
        ++ [PNode.commentRangeStart cid, cs.get ⟨i, h⟩,
            PNode.commentRangeEnd cid, PNode.refRun cid]
        ++ cs.drop (i + 1) := by
    unfold link_comment mark_comment_start mark_comment_end
    rw [show insertAt cs i (PNode.commentRangeStart cid)
        = cs.take i
          ++ PNode.commentRangeStart cid :: cs.get ⟨i, h⟩ :: cs.drop (i + 1) from by
      conv_lhs => rw [hsplit]
      exact insertAt_at _ _ _ _ hpre.symm]
    rw [show cs.take i ++ PNode.commentRangeStart cid :: cs.get ⟨i, h⟩ :: cs.drop (i + 1)
        = (cs.take i ++ [PNode.commentRangeStart cid, cs.get ⟨i, h⟩]) ++ cs.drop (i + 1)
      from by simp]
    rw [insertAt_at _ _ _ _ (by simp [hpre])]
    rw [show (cs.take i ++ [PNode.commentRangeStart cid, cs.get ⟨i, h⟩])
          ++ PNode.commentRangeEnd cid :: cs.drop (i + 1)
        = (cs.take i
            ++ [PNode.commentRangeStart cid, cs.get ⟨i, h⟩, PNode.commentRangeEnd cid])
          ++ cs.drop (i + 1) from by simp]
    rw [insertAt_at _ _ _ _ (by simp [hpre])]
    simp
  refine ⟨hmain, ?_, ?_, ?_⟩
  · rw [hmain, List.append_assoc,
      List.getElem?_append_right (by omega : (cs.take i).length ≤ i)]
    simp [hpre]
  · rw [hmain, List.append_assoc,
      List.getElem?_append_right (by omega : (cs.take i).length ≤ i + 2)]
    simp [hpre]
  · rw [hmain, List.append_assoc,
      List.getElem?_append_right (by omega : (cs.take i).length ≤ i + 3)]
    simp [hpre]

theorem c2_witness :
    (0 < ([PNode.run 5] : List PNode).length)
      ∧ link_comment [PNode.run 5] 0 7
          = [PNode.commentRangeStart 7, PNode.run 5,
             PNode.commentRangeEnd 7, PNode.refRun 7]
      ∧ (link_comment [PNode.run 5] 0 7)[0]? = some (PNode.commentRangeStart 7)
      ∧ (link_comment [PNode.run 5] 0 7)[2]? = some (PNode.commentRangeEnd 7)
      ∧ (link_comment [PNode.run 5] 0 7)[3]? = some (PNode.refRun 7) := by
  have hc := c2_link_comment_order [PNode.run 5] 0 7 (by decide)
  exact ⟨by decide, by simpa using hc.1, hc.2.1, hc.2.2.1, hc.2.2.2⟩

/-- C3 counterexample: Document.add_comment with the end run strictly before
the start run under the same parent inserts the markers unconditionally and
returns normally (the model is a total function, as the source raises
nothing on this path); the resulting sibling sequence places the
commentRangeEnd marker at a strictly smaller document-order index than the
commentRangeStart marker, and no RangeError or any other failure occurs,
contradicting the claim that this situation fails with a RangeError. -/
theorem c3_counterexample :
    document_add_comment [PNode.run 0, PNode.run 1] 1 0 7
      = [PNode.run 0, PNode.commentRangeEnd 7, PNode.refRun 7,
         PNode.commentRangeStart 7, PNode.run 1]
    ∧ List.indexOf (PNode.commentRangeEnd 7)
        (document_add_comment [PNode.run 0, PNode.run 1] 1 0 7)
      < List.indexOf (PNode.commentRangeStart 7)
        (document_add_comment [PNode.run 0, PNode.run 1] 1 0 7) := by
  exact ⟨by decide, by decide⟩

/-- C3 amended: Document.add_comment performs no ordering validation and
never raises: with the end run at index |A| and the start run after it, it
still splices rangeStart before the start run and rangeEnd plus reference
run after the end run, leaving the rangeEnd marker at a strictly smaller
document-order index than the rangeStart marker. -/
theorem c3_add_comment_no_validation (A B C : List PNode) (e s : PNode) (cid : Nat) :
    document_add_comment (A ++ e :: (B ++ s :: C)) (A.length + B.length + 1) A.length cid
      = A ++ e :: PNode.commentRangeEnd cid :: PNode.refRun cid
          :: (B ++ PNode.commentRangeStart cid :: s :: C) := by
  unfold document_add_comment mark_comment_start mark_comment_end
  have hnle : ¬ (A.length + B.length + 1 ≤ A.length) := by omega
  rw [if_neg hnle]
  rw [show A ++ e :: (B ++ s :: C) = (A ++ e :: B) ++ s :: C from by simp]
  rw [insertAt_at (A ++ e :: B) (s :: C) (PNode.commentRangeStart cid)
    (A.length + B.length + 1) (by simp; omega)]
  rw [show (A ++ e :: B) ++ PNode.commentRangeStart cid :: s :: C
      = (A ++ [e]) ++ (B ++ PNode.commentRangeStart cid :: s :: C) from by simp]
  rw [insertAt_at (A ++ [e]) (B ++ PNode.commentRangeStart cid :: s :: C)
    (PNode.commentRangeEnd cid) (A.length + 1) (by simp)]
  rw [show (A ++ [e])
        ++ PNode.commentRangeEnd cid :: (B ++ PNode.commentRangeStart cid :: s :: C)
      = (A ++ [e, PNode.commentRangeEnd cid])
        ++ (B ++ PNode.commentRangeStart cid :: s :: C) from by simp]
  rw [insertAt_at (A ++ [e, PNode.commentRangeEnd cid])
    (B ++ PNode.commentRangeStart cid :: s :: C)
    (PNode.refRun cid) (A.length + 2) (by simp)]
  simp

/-! ## Initials heuristic -/

theorem splitSep_cons (p : Char → Bool) (c : Char) (cs : List Char) :
    splitSep p (c :: cs)
      = if p c then [] :: splitSep p cs
        else
          match splitSep p cs with
          | [] => [[c]]
          | t :: ts => (c :: t) :: ts := rfl

theorem splitSep_congr (p q : Char → Bool) (s : List Char)
    (h : ∀ c ∈ s, p c = q c) : splitSep p s = splitSep q s := by
  induction s with
  | nil => rfl
  | cons c cs ih =>
    rw [splitSep_cons, splitSep_cons, h c (List.mem_cons_self c cs),
      ih (fun x hx => h x (List.mem_cons_of_mem c hx))]

/-- C8 counterexample: the code splits the author on the literal space
character, not on whitespace in general; for the author "a TAB b" it derives
the initials "A", while the whitespace-separated-token rule of the claim
yields "AB". -/
theorem c8_counterexample :
    deriveInitials ['a', '\t', 'b'] = some ['A']
      ∧ deriveInitialsSpec ['a', '\t', 'b'] = ['A', 'B']
      ∧ deriveInitials ['a', '\t', 'b'] ≠ some (deriveInitialsSpec ['a', '\t', 'b']) :=
  ⟨by decide, by decide, by decide⟩

/-- C8 amended: the three documented examples hold, and the claimed
whitespace-token rule agrees with the code whenever the only whitespace
characters in the author are plain spaces and splitting on the space
character produces no empty token (no leading, trailing or consecutive
spaces). -/
theorem c8_initials_space_split :
    (deriveInitials "Ryan Mannion".toList = some "RM".toList
        ∧ deriveInitials "BlackBoiler".toList = some "BB".toList
        ∧ deriveInitials "ryan mannion".toList = some "RM".toList)
      ∧ ∀ author : List Char,
          (∀ c ∈ author, isPyWs c = true → c = ' ')
          → (∀ t ∈ splitSep (fun c => c = ' ') author, t ≠ [])
          → deriveInitials author = some (deriveInitialsSpec author) := by
  refine ⟨⟨by decide, by decide, by decide⟩, ?_⟩
  intro author h1 h2
  unfold deriveInitials deriveInitialsSpec
  by_cases hu : (upperInitials author).isEmpty
  · rw [if_pos hu, if_pos hu]
    unfold splitterInitials
    have hpq : ∀ c ∈ author, (decide (c = ' ')) = isPyWs c := by
      intro c hc
      by_cases hsp : c = ' '
      · subst hsp
        simp [isPyWs]
      · cases hiw : isPyWs c
        · simp [hsp]
        · exact absurd (h1 c hc hiw) hsp
    have hsplit : splitSep (fun c => c = ' ') author = splitSep isPyWs author :=
      splitSep_congr _ _ _ hpq
    rw [← hsplit]
    have hfilter : (splitSep (fun c => c = ' ') author).filter (fun t => !t.isEmpty)
        = splitSep (fun c => c = ' ') author :=
      List.filter_eq_self.mpr (by
        intro a ha
        simpa [List.isEmpty_iff] using h2 a ha)
    rw [hfilter]
    have hall : (splitSep (fun c => c = ' ') author).all (fun t => !t.isEmpty) = true := by
      rw [List.all_eq_true]
      intro x hx
      simpa [List.isEmpty_iff] using h2 x hx
    rw [if_pos hall, List.map_map]
    rfl
  · rw [if_neg hu, if_neg hu]

theorem c8_witness :
    (∀ c ∈ "ryan mannion".toList, isPyWs c = true → c = ' ')
      ∧ deriveInitials "ryan mannion".toList
          = some (deriveInitialsSpec "ryan mannion".toList) :=
  ⟨by decide, c8_initials_space_split.2 "ryan mannion".toList (by decide) (by decide)⟩

/-! ## Fake list markers -/

theorem mapM_eq_none_of_mem {α β : Type} (f : α → Option β) (l : List α) (a : α)
    (ha : a ∈ l) (hf : f a = none) : l.mapM f = none := by
  induction l with
  | nil => simp at ha
  | cons x xs ih =>
    rw [List.mapM_cons]
    rcases List.mem_cons.mp ha with h | h
    · rw [h] at hf
      rw [hf]
      rfl
    · cases hx : f x
      · rfl
      · rw [ih h]
        rfl

/-- C9: fudge_list_markers aborts silently on any numbering-lookup failure:
whenever the group computation of some paragraph fails, the whole operation
returns with no error and with every paragraph, in particular every
paragraph text, unchanged. -/
theorem c9_fudge_silent_abort (paras : List Para)
    (h : ∃ p ∈ paras, paraGroup p = none) :
    fudge_list_markers paras = (none, paras) := by
  rcases h with ⟨p, hp, hg⟩
  unfold fudge_list_markers
  have hnone : paraNumGroups paras = none := mapM_eq_none_of_mem paraGroup paras p hp hg
  rw [hnone]

theorem c9_witness :
    (∃ p ∈ [Para.mk [NumPrElem.mk none none] ['x']], paraGroup p = none)
      ∧ fudge_list_markers [Para.mk [NumPrElem.mk none none] ['x']]
          = (none, [Para.mk [NumPrElem.mk none none] ['x']]) :=
  ⟨by decide, c9_fudge_silent_abort [Para.mk [NumPrElem.mk none none] ['x']] (by decide)⟩

/-- C10: in the run text projection a w:br element contributes a newline
exactly when its effective break type (the w:type attribute, defaulting to
textWrapping when absent) is textWrapping — page and column breaks contribute
nothing — while a w:cr element always contributes a newline. -/
theorem c10_break_text_projection :
    (∀ (pre post : List RChild) (b : Option (List Char)),
        runText (pre ++ RChild.atom (Atom.br b) :: post)
          = runText pre
            ++ (if brType b = wTextWrapping then ['\n'] else [])
            ++ runText post)
      ∧ (∀ pre post : List RChild,
        runText (pre ++ RChild.atom Atom.cr :: post)
          = runText pre ++ '\n' :: runText post)
      ∧ brType none = wTextWrapping
      ∧ brStr (some "page".toList) = []
      ∧ brStr (some "column".toList) = [] := by
  refine ⟨?_, ?_, rfl, by decide, by decide⟩
  · intro pre post b
    rw [runText_append,
      show RChild.atom (Atom.br b) :: post = [RChild.atom (Atom.br b)] ++ post from rfl,
      runText_append]
    have hone : runText [RChild.atom (Atom.br b)] = brStr b := by
      simp [runText, childSelected, childStr]
    rw [hone]
    simp [brStr, List.append_assoc]
  · intro pre post
    rw [runText_append,
      show RChild.atom Atom.cr :: post = [RChild.atom Atom.cr] ++ post from rfl,
      runText_append]
    simp [runText, childSelected, childStr]

end Docx
